import Mathlib

/-!
Verification of the document-retrieval core of this repository
(`src/utils/retrieval_gnn.py`, class `GNNRetrieval`).

The Python code is shallowly embedded: strings are `String`/`List Char`,
Python floats are modelled as exact rationals `ℚ`, Python dicts for
passages and edges become structures, and the external sentence-encoder
(`sentence_transformers`, an optional collaborator outside this module)
is a parameter `encode : String → List ℚ`.  The real square root used by
`np.linalg.norm` is kept abstract as a parameter `sqrt : ℚ → ℚ` so that
all definitions stay executable; the only place the actual value of a
norm matters in the code is the strict-positivity guard
`norm > 0`, which for the real square root is equivalent to the
(rational, decidable) test `0 < sumSq v`, and that equivalent test is
what the embedding uses.
-/

/-- Python's `\s` character class (ASCII part; the repository's inputs and
all tests here are ASCII). Used by `re.split(r'(?<=[.!?])\s+', text)`,
`str.split()` and `str.strip()`. -/
def isPySpace (c : Char) : Bool :=
  c = ' ' || c = '\t' || c = '\n' || c = '\r' || c = '\x0b' || c = '\x0c'

/-- Python `str.lower()` on a character (ASCII case folding). -/
def pyLowerChar (c : Char) : Char :=
  if 'A' ≤ c ∧ c ≤ 'Z' then Char.ofNat (c.toNat + 32) else c

/-- Python `str.lower()` on a character list. -/
def pyLower (l : List Char) : List Char := l.map pyLowerChar

/-- Worker for Python `str.split()` (split on whitespace runs, dropping
empty pieces).  `acc` holds the reversed current word. -/
def pySplitGo (acc : List Char) : List Char → List (List Char)
  | [] => if acc.isEmpty then [] else [acc.reverse]
  | c :: rest =>
    if isPySpace c then
      if acc.isEmpty then pySplitGo [] rest else acc.reverse :: pySplitGo [] rest
    else pySplitGo (c :: acc) rest

/-- Python `str.split()` with no separator argument. -/
def pySplit (l : List Char) : List (List Char) := pySplitGo [] l

/-- `len(s.split())`: the number of whitespace-separated words of `s`. -/
def wc (l : List Char) : Nat := (pySplit l).length

/-- Does the reversed sentence buffer end in `.`, `!` or `?`
(the lookbehind `(?<=[.!?])` of the sentence-splitting regex)? -/
def sentEnd : List Char → Bool
  | [] => false
  | p :: _ => p = '.' || p = '!' || p = '?'

/-- Worker for `re.split(r'(?<=[.!?])\s+', text)`: a single pass that,
on whitespace directly following `.`/`!`/`?`, emits the piece read so far
and greedily consumes the whitespace run (`skipping = true` while doing
so).  Like `re.split` it also emits the final (possibly empty) piece. -/
def splitSentencesGo (acc : List Char) (skipping : Bool) : List Char → List (List Char)
  | [] => [acc.reverse]
  | c :: rest =>
    if skipping then
      if isPySpace c then splitSentencesGo acc true rest
      else splitSentencesGo [c] false rest
    else
      if isPySpace c ∧ sentEnd acc then
        acc.reverse :: splitSentencesGo [] true rest
      else splitSentencesGo (c :: acc) false rest

/-- Python `str.lstrip()` (whitespace variant). -/
def pyLstrip (l : List Char) : List Char := l.dropWhile isPySpace

/-- Python `str.rstrip()` (whitespace variant). -/
def pyRstrip (l : List Char) : List Char := (l.reverse.dropWhile isPySpace).reverse

/-- Python `str.strip()` (whitespace variant). -/
def pyStrip (l : List Char) : List Char := pyRstrip (pyLstrip l)

/-- Lines 168-169 of `retrieval_gnn.py`:
`sentences = re.split(r'(?<=[.!?])\s+', text)` followed by
`sentences = [s.strip() for s in sentences if s.strip()]`. -/
def pySentences (text : String) : List (List Char) :=
  ((splitSentencesGo [] false text.data).map pyStrip).filter (fun s => !s.isEmpty)

/-- A passage node, as built by `GNNRetrieval.chunk_document` (a Python
dict with keys `id`, `text`, `word_count`, `char_count`, `start_sentence`,
`end_sentence`; the retriever later attaches `relevance_score` to copies,
modelled by the `Option` field, `none` = key absent). -/
structure Chunk where
  id : Nat
  text : String
  word_count : Nat
  char_count : Nat
  start_sentence : Bool
  end_sentence : Bool
  relevance_score : Option ℚ
deriving DecidableEq, Inhabited, Repr

/-- `' '.join(current_chunk)`. -/
def joinSpaces (l : List (List Char)) : List Char := List.intercalate [' '] l

/-- Python's tail slice `l[-k:]` for `k ≥ 0`: for `k = 0` the index `-0`
is `0`, so the slice is the whole list; otherwise it is the last
`min k (length l)` elements. -/
def pyTailSlice (l : List (List Char)) (k : Nat) : List (List Char) :=
  if k = 0 then l else l.drop (l.length - k)

/-- Line 194 of `retrieval_gnn.py`:
`overlap_sentences = current_chunk[-overlap:] if len(current_chunk) > overlap else current_chunk`. -/
def overlapSlice (cur : List (List Char)) (overlap : Nat) : List (List Char) :=
  if cur.length > overlap then pyTailSlice cur overlap else cur

/-- The dict literal appended to `chunks` (lines 184-191 and 204-211):
`id` and `start_sentence` come from `len(chunks)`, `word_count` is the
running `current_length`, `char_count` is `len(chunk_text)`. -/
def mkChunk (nChunks : Nat) (cur : List (List Char)) (curLen : Nat) (isEnd : Bool) : Chunk :=
  { id := nChunks
    text := ⟨joinSpaces cur⟩
    word_count := curLen
    char_count := (joinSpaces cur).length
    start_sentence := nChunks == 0
    end_sentence := isEnd
    relevance_score := none }

/-- The body of the sentence loop of `chunk_document` (lines 178-199).
State: accumulated `chunks`, `current_chunk`, `current_length`. -/
def chunkStep (chunk_size overlap : Nat)
    (st : List Chunk × List (List Char) × Nat) (sentence : List Char) :
    List Chunk × List (List Char) × Nat :=
  let chunks := st.1
  let cur := st.2.1
  let curLen := st.2.2
  let sLen := wc sentence
  if curLen + sLen > chunk_size ∧ cur ≠ [] then
    let chunks' := chunks ++ [mkChunk chunks.length cur curLen false]
    let cur' := overlapSlice cur overlap ++ [sentence]
    (chunks', cur', (cur'.map wc).sum)
  else
    (chunks, cur ++ [sentence], curLen + sLen)

/-- `GNNRetrieval.chunk_document` (lines 154-213): sentence-split the
text, accumulate sentences into passages of at most `chunk_size` words
(advisory bound), seed each new buffer via `overlapSlice`, and flush the
final buffer with `end_sentence = True`. -/
def chunk_document (text : String) (chunk_size overlap : Nat) : List Chunk :=
  let sentences := pySentences text
  let st := sentences.foldl (chunkStep chunk_size overlap) ([], [], 0)
  if st.2.1 ≠ [] then st.1 ++ [mkChunk st.1.length st.2.1 st.2.2 true] else st.1

/-- `set(text.lower().split())`: the lowercased word set of a text. -/
def wordSet (l : List Char) : Finset (List Char) := (pySplit (pyLower l)).toFinset

/-- The lexical similarity used at lines 266-269 and 334-339:
`len(A & B) / max(len(A | B), 1)` on lowercased word sets
(Jaccard overlap, with the denominator clamped to at least 1). -/
def pyJaccard (a b : List Char) : ℚ :=
  ((wordSet a ∩ wordSet b).card : ℚ) / (((max (wordSet a ∪ wordSet b).card 1 : Nat)) : ℚ)

/-- `pyJaccard` on `String`s. -/
def pyJaccardStr (a b : String) : ℚ := pyJaccard a.data b.data

/-- `np.dot` on rational vectors. -/
def dotProd (u v : List ℚ) : ℚ := (List.zipWith (· * ·) u v).sum

/-- The squared Euclidean norm `‖v‖²`.  The code tests
`np.linalg.norm(v) > 0`, i.e. `Real.sqrt (sumSq v) > 0`, which is
equivalent to the decidable test `0 < sumSq v` used below. -/
def sumSq (v : List ℚ) : ℚ := dotProd v v

/-- The state of a `GNNRetrieval` instance: the attributes
`self.embedding_available`, `self.embedding_model` (the encoder of the
optional sentence-transformers collaborator, abstracted to its
text-to-vector function; `none` = Python `None`), and whether the
module-level `np` import succeeded (`np is not None`). -/
structure GNNRetrieval where
  embedding_available : Bool
  embedding_model : Option (String → List ℚ)
  np_available : Bool

/-- `GNNRetrieval.__init__` (lines 46-62): `embedding_available` starts
as the module flag `EMBEDDING_AVAILABLE` (true iff both
sentence-transformers and numpy imported); when it is true the model is
loaded, and a load failure (`loadResult = none`) downgrades
`embedding_available` to false with `embedding_model` left `None`. -/
def GNNRetrieval.init (EMBEDDING_AVAILABLE : Bool)
    (loadResult : Option (String → List ℚ)) : GNNRetrieval :=
  if EMBEDDING_AVAILABLE then
    match loadResult with
    | some m => ⟨true, some m, true⟩
    | none => ⟨false, none, true⟩
  else ⟨false, none, false⟩

/-- The guard `self.embedding_available and self.embedding_model and np
is not None`, evaluated identically at the top of `create_graph_edges`
(line 230) and `retrieve_relevant_chunks` (line 300): the encoder that
the embedding branch will use, or `none` when the lexical fallback
runs. -/
def activeEncoder (g : GNNRetrieval) : Option (String → List ℚ) :=
  match g.embedding_model with
  | some encode => if g.embedding_available ∧ g.np_available then some encode else none
  | none => none

/-- Lines 406-408: `"embedding" if self.embedding_available and
self.embedding_model else "keyword"` (the metadata field). -/
def processing_method (g : GNNRetrieval) : String :=
  if g.embedding_available ∧ g.embedding_model.isSome then "embedding" else "keyword"

/-- Edge `type` strings of `create_graph_edges`. -/
inductive EdgeType where
  | semantic_similarity
  | sequential
  | keyword_overlap
deriving DecidableEq, Repr

/-- A graph edge dict `{source, target, weight, type}`. -/
structure Edge where
  source : Nat
  target : Nat
  weight : ℚ
  type : EdgeType
deriving DecidableEq, Repr

/-- The embedding branch of `create_graph_edges` (lines 230-252): encode
all chunk texts, and for every pair `i < j` whose vectors both have
positive norm emit a `semantic_similarity` edge when the cosine
similarity strictly exceeds the threshold. -/
def semanticEdges (encode : String → List ℚ) (chunks : List Chunk)
    (similarity_threshold : ℚ) (sqrt : ℚ → ℚ) : List Edge :=
  let embs := chunks.map (fun c => encode c.text)
  (List.range chunks.length).flatMap (fun i =>
    (List.range' (i + 1) (chunks.length - (i + 1))).filterMap (fun j =>
      let ei := embs.getD i []
      let ej := embs.getD j []
      if 0 < sumSq ei ∧ 0 < sumSq ej then
        let similarity := dotProd ei ej / (sqrt (sumSq ei) * sqrt (sumSq ej))
        if similarity > similarity_threshold then
          some ⟨(chunks.getD i default).id, (chunks.getD j default).id,
                similarity, .semantic_similarity⟩
        else none
      else none))

/-- The lexical fallback branch of `create_graph_edges` (lines 253-277):
per index `i`, a `sequential` edge of weight `0.8` to the successor, then
`keyword_overlap` edges to `j ∈ range(i+1, min(i+3, len(chunks)))` whose
Jaccard overlap strictly exceeds `0.2`. -/
def lexicalEdges (chunks : List Chunk) : List Edge :=
  (List.range chunks.length).flatMap (fun i =>
    (if i < chunks.length - 1 then
      [⟨(chunks.getD i default).id, (chunks.getD (i + 1) default).id,
        (4 : ℚ) / 5, .sequential⟩]
     else []) ++
    (List.range' (i + 1) (min (i + 3) chunks.length - (i + 1))).filterMap (fun j =>
      if pyJaccardStr (chunks.getD i default).text (chunks.getD j default).text > (1 : ℚ) / 5 then
        some ⟨(chunks.getD i default).id, (chunks.getD j default).id,
              pyJaccardStr (chunks.getD i default).text (chunks.getD j default).text,
              .keyword_overlap⟩
      else none))

/-- `GNNRetrieval.create_graph_edges` (lines 215-278). -/
def create_graph_edges (g : GNNRetrieval) (chunks : List Chunk)
    (similarity_threshold : ℚ) (sqrt : ℚ → ℚ) : List Edge :=
  match activeEncoder g with
  | some encode => semanticEdges encode chunks similarity_threshold sqrt
  | none => lexicalEdges chunks

/-- The descending, stable order used to model
`similarities.sort(key=lambda x: x[1], reverse=True)`: higher score
first; on equal scores, smaller original index first.  Python's sort is
stable and the index lists it sorts are strictly increasing, so a sort
by this total order produces exactly the same list. -/
def scoreOrder (p q : Nat × ℚ) : Prop := q.2 < p.2 ∨ (p.2 = q.2 ∧ p.1 ≤ q.1)

instance : DecidableRel scoreOrder := fun p q =>
  inferInstanceAs (Decidable (q.2 < p.2 ∨ (p.2 = q.2 ∧ p.1 ≤ q.1)))

instance : IsTotal (Nat × ℚ) scoreOrder where
  total p q := by
    rcases lt_trichotomy p.2 q.2 with h | h | h
    · exact Or.inr (Or.inl h)
    · rcases Nat.le_total p.1 q.1 with h1 | h1
      · exact Or.inl (Or.inr ⟨h, h1⟩)
      · exact Or.inr (Or.inr ⟨h.symm, h1⟩)
    · exact Or.inl (Or.inl h)

instance : IsTrans (Nat × ℚ) scoreOrder where
  trans p q s hpq hqs := by
    rcases hpq with h1 | ⟨h1, h1'⟩ <;> rcases hqs with h2 | ⟨h2, h2'⟩
    · exact Or.inl (h2.trans h1)
    · exact Or.inl (h2 ▸ h1)
    · exact Or.inl (h1 ▸ h2)
    · exact Or.inr ⟨h1.trans h2, h1'.trans h2'⟩

/-- `similarities.sort(key=lambda x: x[1], reverse=True)`. -/
def sortDesc (l : List (Nat × ℚ)) : List (Nat × ℚ) := l.insertionSort scoreOrder

/-- Lines 319-330 (and identically 342-352): sort the `(index, score)`
pairs by descending score, keep the first `top_k` indices, and for each
one append a copy (`chunks[idx].copy()`) of the passage with the score
attached as `relevance_score` (looked up by `next(score for i, score in
similarities if i == idx)` in the sorted list). -/
def rankTopK (scores : List (Nat × ℚ)) (top_k : Nat) (chunks : List Chunk) : List Chunk :=
  let sorted := sortDesc scores
  let relevant_indices := (sorted.take top_k).map Prod.fst
  relevant_indices.map (fun idx =>
    { chunks.getD idx default with
        relevance_score := (sorted.find? (fun p => p.1 == idx)).map Prod.snd })

/-- Lines 333-340: one `(index, score)` pair per passage, scored by
Jaccard overlap against `set((description + " " + audience_type).lower().split())`. -/
def lexScores (chunks : List Chunk) (description audience_type : String) : List (Nat × ℚ) :=
  (List.range chunks.length).map (fun i =>
    (i, pyJaccardStr (description ++ " " ++ audience_type) (chunks.getD i default).text))

/-- Lines 300-318: encode `f"{description} Audience: {audience_type}"`
and every chunk text; keep an `(index, cosine similarity)` pair exactly
for the chunks where both the query norm and the chunk norm are positive. -/
def embSimilarities (encode : String → List ℚ) (chunks : List Chunk)
    (description audience_type : String) (sqrt : ℚ → ℚ) : List (Nat × ℚ) :=
  let query_embedding := encode (description ++ " Audience: " ++ audience_type)
  let chunk_embeddings := chunks.map (fun c => encode c.text)
  (List.range chunks.length).filterMap (fun i =>
    if 0 < sumSq query_embedding ∧ 0 < sumSq (chunk_embeddings.getD i []) then
      some (i, dotProd query_embedding (chunk_embeddings.getD i []) /
        (sqrt (sumSq query_embedding) * sqrt (sumSq (chunk_embeddings.getD i []))))
    else none)

/-- The `(index, score)` list built by whichever branch of
`retrieve_relevant_chunks` is active. -/
def modeScores (g : GNNRetrieval) (chunks : List Chunk)
    (description audience_type : String) (sqrt : ℚ → ℚ) : List (Nat × ℚ) :=
  match activeEncoder g with
  | some encode => embSimilarities encode chunks description audience_type sqrt
  | none => lexScores chunks description audience_type

/-- `GNNRetrieval.retrieve_relevant_chunks` (lines 280-352): empty input
returns `[]` at once; otherwise score the passages in the active mode
and return the top-`top_k` annotated copies. -/
def retrieve_relevant_chunks (g : GNNRetrieval) (chunks : List Chunk)
    (description audience_type : String) (top_k : Nat) (sqrt : ℚ → ℚ) : List Chunk :=
  if chunks.isEmpty then []
  else rankTopK (modeScores g chunks description audience_type sqrt) top_k chunks

/-- The `metadata` dict of the `process_document` output (lines 396-409;
the fields that depend on external I/O — `pdf_path`, `num_images`,
`timestamp` — are outside the core and omitted). -/
structure Metadata where
  description : String
  audience_type : String
  total_chunks : Nat
  relevant_chunks_count : Nat
  total_edges : Nat
  processing_method : String
deriving DecidableEq, Repr

/-- The output dict of `process_document` (lines 396-417), minus the
passthrough `images` array. -/
structure OutputData where
  metadata : Metadata
  nodes : List Chunk
  edges : List Edge
  relevant_chunks : List Chunk

/-- `GNNRetrieval.process_document` (lines 355-419), modelled from the
extracted text onward (`extract_text_from_pdf` is an external
collaborator; its result is the `text` argument).  The only raise is
`ValueError("Failed to extract text from PDF")` when `not text`, i.e.
when `text` is the empty string; there is no check on the number of
chunks. -/
def process_document (g : GNNRetrieval) (text : String)
    (description audience_type : String) (chunk_size overlap : Nat)
    (similarity_threshold : ℚ) (top_k : Nat) (sqrt : ℚ → ℚ) :
    Except String OutputData :=
  if text = "" then .error "Failed to extract text from PDF"
  else
    let chunks := chunk_document text chunk_size overlap
    let edges := create_graph_edges g chunks similarity_threshold sqrt
    let relevant_chunks := retrieve_relevant_chunks g chunks description audience_type top_k sqrt
    .ok
      { metadata :=
          { description := description
            audience_type := audience_type
            total_chunks := chunks.length
            relevant_chunks_count := relevant_chunks.length
            total_edges := edges.length
            processing_method := processing_method g }
        nodes := chunks
        edges := edges
        relevant_chunks := relevant_chunks }

/-- The `relevance_score` attached to a returned passage (`0` if absent;
every passage returned by the retriever carries a score). -/
def relScore (c : Chunk) : ℚ := c.relevance_score.getD 0

/-! ### Concrete fixtures used by the witness and counterexample
theorems below. -/

/-- A `GNNRetrieval` state in lexical fallback mode (no
sentence-transformers / numpy available). -/
def gKeyword : GNNRetrieval := GNNRetrieval.init false none

/-- An encoder that returns the zero vector for every text. -/
def zeroEncoder : String → List ℚ := fun _ => [0]

/-- An embedding-mode state whose encoder always returns a zero-norm
vector. -/
def gEmbZero : GNNRetrieval := GNNRetrieval.init true (some zeroEncoder)

/-- An encoder that returns a zero-norm vector for exactly one passage
text and a unit vector for everything else. -/
def mixedEncoder : String → List ℚ :=
  fun s => if s = "banana cherry date" then [0] else [1]

/-- An embedding-mode state with `mixedEncoder`. -/
def gEmbMixed : GNNRetrieval := GNNRetrieval.init true (some mixedEncoder)

/-- Sample passages (ids equal to list positions, as `chunk_document`
produces them). -/
def chunkA : Chunk := ⟨0, "apple banana cherry", 3, 19, true, false, none⟩

def chunkB : Chunk := ⟨1, "banana cherry date", 3, 18, false, false, none⟩

def chunkC : Chunk := ⟨2, "zebra yak xylophone", 3, 19, false, true, none⟩

/-! ### Word-count lemmas: `len(text.split())` is preserved by the
sentence split, by `strip`, and is additive across whitespace. -/

theorem pySplitGo_length_append_space (c : Char) (hc : isPySpace c = true) :
    ∀ (a : List Char) (acc b : List Char),
      (pySplitGo acc (a ++ c :: b)).length
        = (pySplitGo acc a).length + (pySplitGo [] b).length := by
  intro a
  induction a with
  | nil =>
    intro acc b
    simp only [List.nil_append, pySplitGo, hc, if_true]
    by_cases h : acc.isEmpty <;> simp [h, pySplitGo] <;> omega
  | cons x xs ih =>
    intro acc b
    simp only [List.cons_append, pySplitGo]
    by_cases hx : isPySpace x
    · by_cases h : acc.isEmpty <;> simp [hx, h, ih] <;> omega
    · simp [hx, ih]

theorem pySplitGo_allspace (ws : List Char) (h : ∀ c ∈ ws, isPySpace c = true) :
    pySplitGo [] ws = [] := by
  induction ws with
  | nil => rfl
  | cons c rest ih =>
    have hc : isPySpace c = true := h c (List.mem_cons_self c rest)
    simp only [pySplitGo, hc, if_true, List.isEmpty_nil]
    exact ih (fun x hx => h x (List.mem_cons_of_mem c hx))

theorem wc_append_space (c : Char) (hc : isPySpace c = true) (a b : List Char) :
    wc (a ++ c :: b) = wc a + wc b :=
  pySplitGo_length_append_space c hc a [] b

theorem wc_space_cons (c : Char) (hc : isPySpace c = true) (b : List Char) :
    wc (c :: b) = wc b := by
  have h := wc_append_space c hc [] b
  simpa [wc, pySplit, pySplitGo] using h

theorem wc_allspace (ws : List Char) (h : ∀ c ∈ ws, isPySpace c = true) : wc ws = 0 := by
  simp [wc, pySplit, pySplitGo_allspace ws h]

theorem wc_append_allspace (a ws : List Char) (h : ∀ c ∈ ws, isPySpace c = true) :
    wc (a ++ ws) = wc a := by
  cases ws with
  | nil => simp
  | cons c rest =>
    have hc : isPySpace c = true := h c (List.mem_cons_self c rest)
    rw [wc_append_space c hc,
      wc_allspace rest (fun x hx => h x (List.mem_cons_of_mem c hx))]
    omega

theorem wc_lstrip (l : List Char) : wc (pyLstrip l) = wc l := by
  unfold pyLstrip
  induction l with
  | nil => rfl
  | cons c rest ih =>
    by_cases hc : isPySpace c
    · rw [List.dropWhile_cons_of_pos hc, ih, wc_space_cons c hc]
    · rw [List.dropWhile_cons_of_neg (by simp [hc])]

theorem rstrip_decomp (l : List Char) :
    ∃ ws, l = pyRstrip l ++ ws ∧ ∀ c ∈ ws, isPySpace c = true := by
  refine ⟨(l.reverse.takeWhile isPySpace).reverse, ?_, ?_⟩
  · unfold pyRstrip
    conv_lhs => rw [← l.reverse_reverse, ← List.takeWhile_append_dropWhile isPySpace l.reverse]
    rw [List.reverse_append]
  · intro c hc
    rw [List.mem_reverse] at hc
    exact List.mem_takeWhile_imp hc

theorem wc_rstrip (l : List Char) : wc (pyRstrip l) = wc l := by
  obtain ⟨ws, hdec, hws⟩ := rstrip_decomp l
  conv_rhs => rw [hdec]
  rw [wc_append_allspace _ ws hws]

theorem wc_strip (l : List Char) : wc (pyStrip l) = wc l := by
  rw [pyStrip, wc_rstrip, wc_lstrip]

theorem pySplitGo_length_pos (l acc : List Char) (h : acc ≠ []) :
    0 < (pySplitGo acc l).length := by
  induction l generalizing acc with
  | nil => simp [pySplitGo, List.isEmpty_iff, h]
  | cons c rest ih =>
    simp only [pySplitGo]
    by_cases hc : isPySpace c
    · simp [hc, List.isEmpty_iff, h]
    · simp only [hc, if_false]
      exact ih (c :: acc) (List.cons_ne_nil c acc)

theorem wc_pos_of_head (c : Char) (l : List Char) (hc : isPySpace c = false) :
    0 < wc (c :: l) := by
  unfold wc pySplit
  simp only [pySplitGo, hc, if_false, List.isEmpty_nil]
  exact pySplitGo_length_pos l [c] (List.cons_ne_nil c [])

theorem dropWhile_head_false {p : Char → Bool} :
    ∀ (l : List Char) (c : Char) (r : List Char), l.dropWhile p = c :: r → p c = false := by
  intro l
  induction l with
  | nil => intro c r h; simp at h
  | cons x xs ih =>
    intro c r h
    by_cases hx : p x
    · rw [List.dropWhile_cons_of_pos hx] at h
      exact ih c r h
    · rw [List.dropWhile_cons_of_neg (by simp [hx])] at h
      cases h
      simpa using hx

theorem strip_head_nonspace (t : List Char) (h : pyStrip t ≠ []) :
    ∃ c r, pyStrip t = c :: r ∧ isPySpace c = false := by
  obtain ⟨c, r, hcr⟩ := List.exists_cons_of_ne_nil h
  refine ⟨c, r, hcr, ?_⟩
  obtain ⟨ws, hdec, _⟩ := rstrip_decomp (pyLstrip t)
  have hl : pyLstrip t = c :: (r ++ ws) := by
    rw [pyStrip] at hcr
    rw [hcr] at hdec
    simpa using hdec
  exact dropWhile_head_false t c (r ++ ws) hl

theorem wc_pos_of_strip_ne (t : List Char) (h : pyStrip t ≠ []) :
    0 < wc (pyStrip t) := by
  obtain ⟨c, r, hcr, hc⟩ := strip_head_nonspace t h
  rw [hcr]
  exact wc_pos_of_head c r hc

theorem splitSentencesGo_wc_sum :
    ∀ (l acc : List Char) (skipping : Bool), (skipping = true → acc = []) →
      (((splitSentencesGo acc skipping l).map wc).sum = wc (acc.reverse ++ l)) := by
  intro l
  induction l with
  | nil => intro acc skipping _; simp [splitSentencesGo]
  | cons c rest ih =>
    intro acc skipping hsk
    cases skipping with
    | true =>
      have hacc : acc = [] := hsk rfl
      subst hacc
      by_cases hc : isPySpace c
      · have hstep : splitSentencesGo [] true (c :: rest) = splitSentencesGo [] true rest := by
          simp [splitSentencesGo, hc]
        rw [hstep, ih [] true (fun _ => rfl)]
        simp [wc_space_cons c hc]
      · have hstep : splitSentencesGo [] true (c :: rest) = splitSentencesGo [c] false rest := by
          simp [splitSentencesGo, hc]
        rw [hstep, ih [c] false (by simp)]
        simp
    | false =>
      by_cases hcs : isPySpace c = true ∧ sentEnd acc = true
      · have hstep : splitSentencesGo acc false (c :: rest)
            = acc.reverse :: splitSentencesGo [] true rest := by
          simp [splitSentencesGo, hcs.1, hcs.2]
        rw [hstep]
        simp only [List.map_cons, List.sum_cons]
        rw [ih [] true (fun _ => rfl)]
        simp only [List.reverse_nil, List.nil_append]
        rw [wc_append_space c hcs.1 acc.reverse rest]
      · have hstep : splitSentencesGo acc false (c :: rest)
            = splitSentencesGo (c :: acc) false rest := by
          simp only [splitSentencesGo]
          rw [if_neg (by simp), if_neg hcs]
        rw [hstep, ih (c :: acc) false (by simp)]
        simp

theorem sum_filter_wc_eq (l : List (List Char)) (f : List Char → Nat)
    (h : ∀ x ∈ l, x.isEmpty = true → f x = 0) :
    ((l.filter (fun s => !s.isEmpty)).map f).sum = (l.map f).sum := by
  induction l with
  | nil => rfl
  | cons x xs ih =>
    by_cases hx : x.isEmpty
    · rw [List.filter_cons_of_neg (by simp [hx])]
      rw [ih (fun y hy => h y (List.mem_cons_of_mem x hy))]
      simp [h x (List.mem_cons_self x xs) hx]
    · rw [List.filter_cons_of_pos (by simp [hx])]
      simp only [List.map_cons, List.sum_cons]
      rw [ih (fun y hy => h y (List.mem_cons_of_mem x hy))]

/-- The total word count of the parsed sentences equals the word count
of the document text: the sentence-splitting regex only removes
whitespace at split points and `strip` only removes edge whitespace. -/
theorem wc_sum_pySentences (text : String) :
    (((pySentences text).map wc).sum) = wc text.data := by
  unfold pySentences
  rw [sum_filter_wc_eq _ wc
        (by intro x _ hx; rw [List.isEmpty_iff] at hx; simp [hx, wc, pySplit, pySplitGo])]
  rw [List.map_map]
  have : (wc ∘ pyStrip) = wc := by
    funext t
    exact wc_strip t
  rw [this]
  have h := splitSentencesGo_wc_sum text.data [] false (by simp)
  simpa using h

theorem pySentences_mem (s : List Char) (text : String) (hs : s ∈ pySentences text) :
    s ≠ [] ∧ ∃ t, s = pyStrip t := by
  unfold pySentences at hs
  rw [List.mem_filter] at hs
  obtain ⟨hmem, hne⟩ := hs
  rw [List.mem_map] at hmem
  obtain ⟨t, _, ht⟩ := hmem
  exact ⟨by simpa [List.isEmpty_iff] using hne, t, ht.symm⟩

theorem pySentences_nil_of_wc_zero (text : String) (h : wc text.data = 0) :
    pySentences text = [] := by
  by_contra hne
  obtain ⟨s, ss, hcons⟩ := List.exists_cons_of_ne_nil hne
  have hsum := wc_sum_pySentences text
  rw [hcons] at hsum
  have hmem : s ∈ pySentences text := by rw [hcons]; exact List.mem_cons_self s ss
  obtain ⟨hsne, t, hst⟩ := pySentences_mem s text hmem
  have : 0 < wc s := by
    rw [hst]
    exact wc_pos_of_strip_ne t (hst ▸ hsne)
  simp only [List.map_cons, List.sum_cons] at hsum
  omega

theorem pySentences_ne_nil_of_wc_pos (text : String) (h : 0 < wc text.data) :
    pySentences text ≠ [] := by
  intro hnil
  have hsum := wc_sum_pySentences text
  rw [hnil] at hsum
  simp at hsum
  omega

/-! ### Chunker lemmas -/

theorem foldl_chunkStep_no_overflow (chunk_size overlap : Nat) :
    ∀ (ss : List (List Char)) (buf : List (List Char)) (len : Nat),
      len + (ss.map wc).sum ≤ chunk_size →
      ss.foldl (chunkStep chunk_size overlap) ([], buf, len)
        = ([], buf ++ ss, len + (ss.map wc).sum) := by
  intro ss
  induction ss with
  | nil => intro buf len _; simp
  | cons s rest ih =>
    intro buf len hle
    simp only [List.map_cons, List.sum_cons] at hle
    have hnot : ¬(len + wc s > chunk_size ∧ buf ≠ []) := by
      rintro ⟨h1, -⟩
      omega
    have hstep : chunkStep chunk_size overlap ([], buf, len) s = ([], buf ++ [s], len + wc s) := by
      simp only [chunkStep]
      rw [if_neg hnot]
    simp only [List.foldl_cons, hstep]
    rw [ih (buf ++ [s]) (len + wc s) (by omega)]
    simp only [List.map_cons, List.sum_cons, List.append_assoc, List.singleton_append,
      Nat.add_assoc]

theorem chunk_document_empty_of_no_sentences (text : String) (chunk_size overlap : Nat)
    (h : pySentences text = []) : chunk_document text chunk_size overlap = [] := by
  simp only [chunk_document, h]
  simp

theorem chunk_document_single (text : String) (chunk_size overlap : Nat)
    (hne : pySentences text ≠ []) (hle : wc text.data ≤ chunk_size) :
    chunk_document text chunk_size overlap
      = [mkChunk 0 (pySentences text) (wc text.data) true] := by
  have hsum : ((pySentences text).map wc).sum = wc text.data := wc_sum_pySentences text
  have hfold := foldl_chunkStep_no_overflow chunk_size overlap (pySentences text) [] 0
    (by omega)
  simp only [chunk_document]
  rw [hfold]
  simp only [List.nil_append, Nat.zero_add]
  rw [if_pos hne, hsum]
  simp

/-! ### Ranking lemmas: `sortDesc` / `rankTopK` -/

theorem sortDesc_perm (l : List (Nat × ℚ)) : List.Perm (sortDesc l) l :=
  List.perm_insertionSort scoreOrder l

theorem sortDesc_sorted (l : List (Nat × ℚ)) : (sortDesc l).Sorted scoreOrder :=
  List.sorted_insertionSort scoreOrder l

theorem length_sortDesc (l : List (Nat × ℚ)) : (sortDesc l).length = l.length :=
  (sortDesc_perm l).length_eq

theorem sortDesc_fst_nodup (l : List (Nat × ℚ)) (h : (l.map Prod.fst).Nodup) :
    ((sortDesc l).map Prod.fst).Nodup :=
  (((sortDesc_perm l).map Prod.fst).nodup_iff).mpr h

theorem find?_key_eq (l : List (Nat × ℚ)) (h : (l.map Prod.fst).Nodup) :
    ∀ p ∈ l, l.find? (fun q => q.1 == p.1) = some p := by
  induction l with
  | nil => intro p hp; simp at hp
  | cons a t ih =>
    intro p hp
    simp only [List.map_cons, List.nodup_cons] at h
    rcases List.mem_cons.mp hp with rfl | hpt
    · rw [List.find?_cons_of_pos _ (by simp)]
    · by_cases hkey : a.1 = p.1
      · exfalso
        exact h.1 (hkey ▸ List.mem_map_of_mem Prod.fst hpt)
      · rw [List.find?_cons_of_neg _ (by simpa using hkey)]
        exact ih h.2 p hpt

theorem rankTopK_eq (scores : List (Nat × ℚ)) (k : Nat) (chunks : List Chunk)
    (h : (scores.map Prod.fst).Nodup) :
    rankTopK scores k chunks
      = ((sortDesc scores).take k).map
          (fun p => { chunks.getD p.1 default with relevance_score := some p.2 }) := by
  unfold rankTopK
  rw [List.map_map]
  apply List.map_congr_left
  intro p hp
  have hmem : p ∈ sortDesc scores := List.mem_of_mem_take hp
  have hfind := find?_key_eq (sortDesc scores) (sortDesc_fst_nodup scores h) p hmem
  simp only [Function.comp_apply, hfind]
  rfl

theorem length_rankTopK (scores : List (Nat × ℚ)) (k : Nat) (chunks : List Chunk)
    (h : (scores.map Prod.fst).Nodup) :
    (rankTopK scores k chunks).length = min k scores.length := by
  rw [rankTopK_eq scores k chunks h, List.length_map, List.length_take, length_sortDesc]

theorem lexScores_fst (chunks : List Chunk) (d a : String) :
    (lexScores chunks d a).map Prod.fst = List.range chunks.length := by
  unfold lexScores
  rw [List.map_map]
  simp [Function.comp_def]

theorem lexScores_fst_nodup (chunks : List Chunk) (d a : String) :
    ((lexScores chunks d a).map Prod.fst).Nodup := by
  rw [lexScores_fst]
  exact List.nodup_range _

theorem length_lexScores (chunks : List Chunk) (d a : String) :
    (lexScores chunks d a).length = chunks.length := by
  unfold lexScores
  rw [List.length_map, List.length_range]

theorem lexScores_mem_lt (chunks : List Chunk) (d a : String) (p : Nat × ℚ)
    (hp : p ∈ lexScores chunks d a) : p.1 < chunks.length := by
  unfold lexScores at hp
  rw [List.mem_map] at hp
  obtain ⟨i, hi, rfl⟩ := hp
  simpa using List.mem_range.mp hi

theorem embSimilarities_fst_pairwise (encode : String → List ℚ) (chunks : List Chunk)
    (d a : String) (sqrt : ℚ → ℚ) :
    (embSimilarities encode chunks d a sqrt).Pairwise (fun p q => p.1 < q.1) := by
  unfold embSimilarities
  rw [List.pairwise_filterMap]
  apply (List.pairwise_lt_range chunks.length).imp_of_mem
  intro i j _ _ hij b hb b' hb'
  split at hb
  · split at hb'
    · cases hb
      cases hb'
      exact hij
    · simp at hb'
  · simp at hb

theorem embSimilarities_fst_nodup (encode : String → List ℚ) (chunks : List Chunk)
    (d a : String) (sqrt : ℚ → ℚ) :
    ((embSimilarities encode chunks d a sqrt).map Prod.fst).Nodup := by
  have hpair := embSimilarities_fst_pairwise encode chunks d a sqrt
  exact List.Pairwise.map Prod.fst (fun a b h => Nat.ne_of_lt h) hpair

theorem embSimilarities_mem (encode : String → List ℚ) (chunks : List Chunk)
    (d a : String) (sqrt : ℚ → ℚ) (p : Nat × ℚ)
    (hp : p ∈ embSimilarities encode chunks d a sqrt) :
    p.1 < chunks.length ∧
      0 < sumSq (encode (d ++ " Audience: " ++ a)) ∧
      0 < sumSq (encode (chunks.getD p.1 default).text) := by
  unfold embSimilarities at hp
  rw [List.mem_filterMap] at hp
  obtain ⟨i, hi, hif⟩ := hp
  have hilt : i < chunks.length := List.mem_range.mp hi
  split at hif
  · rename_i hguard
    obtain ⟨h1, h2⟩ := hguard
    cases hif
    refine ⟨hilt, h1, ?_⟩
    have hmap : (chunks.map (fun c => encode c.text)).getD i [] = encode (chunks.getD i default).text := by
      rw [List.getD_eq_getElem?_getD, List.getElem?_map, List.getD_eq_getElem?_getD,
        List.getElem?_eq_getElem hilt]
      simp
    rw [hmap] at h2
    exact h2
  · simp at hif

theorem modeScores_fst_nodup (g : GNNRetrieval) (chunks : List Chunk)
    (d a : String) (sqrt : ℚ → ℚ) :
    ((modeScores g chunks d a sqrt).map Prod.fst).Nodup := by
  unfold modeScores
  cases activeEncoder g with
  | none => exact lexScores_fst_nodup chunks d a
  | some encode => exact embSimilarities_fst_nodup encode chunks d a sqrt

theorem modeScores_mem_lt (g : GNNRetrieval) (chunks : List Chunk)
    (d a : String) (sqrt : ℚ → ℚ) (p : Nat × ℚ)
    (hp : p ∈ modeScores g chunks d a sqrt) : p.1 < chunks.length := by
  unfold modeScores at hp
  cases henc : activeEncoder g with
  | none => rw [henc] at hp; exact lexScores_mem_lt chunks d a p hp
  | some encode => rw [henc] at hp; exact (embSimilarities_mem encode chunks d a sqrt p hp).1

theorem sortDesc_pairwise_strict (l : List (Nat × ℚ)) (h : (l.map Prod.fst).Nodup) :
    (sortDesc l).Pairwise (fun p q => q.2 < p.2 ∨ (p.2 = q.2 ∧ p.1 < q.1)) := by
  have h1 : (sortDesc l).Pairwise scoreOrder := sortDesc_sorted l
  have h2 : (sortDesc l).Pairwise (fun p q => p.1 ≠ q.1) :=
    List.pairwise_map.mp (sortDesc_fst_nodup l h)
  refine (h1.and h2).imp ?_
  rintro p q ⟨hso, hne⟩
  rcases hso with hlt | ⟨heq, hle⟩
  · exact Or.inl hlt
  · exact Or.inr ⟨heq, lt_of_le_of_ne hle hne⟩

theorem retrieve_eq_rankTopK (g : GNNRetrieval) (chunks : List Chunk)
    (d a : String) (k : Nat) (sqrt : ℚ → ℚ) (hne : chunks ≠ []) :
    retrieve_relevant_chunks g chunks d a k sqrt
      = rankTopK (modeScores g chunks d a sqrt) k chunks := by
  unfold retrieve_relevant_chunks
  rw [if_neg (by simpa [List.isEmpty_iff] using hne)]

theorem modeScores_nil (g : GNNRetrieval) (d a : String) (sqrt : ℚ → ℚ) :
    modeScores g [] d a sqrt = [] := by
  unfold modeScores
  cases activeEncoder g with
  | none => simp [lexScores]
  | some encode => simp [embSimilarities]


/-! ## Claim theorems -/

/-- C7: `chunk_document` never raises (it is a total function of its
input): empty or whitespace-only input yields an empty sequence, and any
document with at least one word whose total word count
(`len(text.split())`) does not exceed the target size yields exactly one
passage, flagged both first (`start_sentence`) and last
(`end_sentence`). -/
theorem chunk_document_edge_cases (text : String) (chunk_size overlap : Nat) :
    ((∀ c ∈ text.data, isPySpace c = true) →
        chunk_document text chunk_size overlap = [])
    ∧ (0 < wc text.data → wc text.data ≤ chunk_size →
        ∃ ch, chunk_document text chunk_size overlap = [ch]
          ∧ ch.start_sentence = true ∧ ch.end_sentence = true) := by
  constructor
  · intro hsp
    exact chunk_document_empty_of_no_sentences text chunk_size overlap
      (pySentences_nil_of_wc_zero text (wc_allspace text.data hsp))
  · intro hpos hle
    have hne := pySentences_ne_nil_of_wc_pos text hpos
    rw [chunk_document_single text chunk_size overlap hne hle]
    exact ⟨_, rfl, by simp [mkChunk], by simp [mkChunk]⟩

theorem chunk_document_edge_cases_witness :
    chunk_document "  " 500 3 = []
    ∧ ∃ ch, chunk_document "Hi there. Bye." 500 3 = [ch]
        ∧ ch.start_sentence = true ∧ ch.end_sentence = true :=
  ⟨(chunk_document_edge_cases "  " 500 3).1 (by decide),
   (chunk_document_edge_cases "Hi there. Bye." 500 3).2 (by decide) (by decide)⟩

/-- C1 counterexample: for the whitespace-only extracted text `" "`,
chunking yields zero passages, yet `process_document` returns a result
instead of raising — so the raise is not "if and only if chunking yields
zero passages". -/
theorem process_document_empty_claim_cex :
    (process_document gKeyword " " "d" "a" 500 3 ((1 : ℚ)/2) 20 id).toOption.isSome = true
    ∧ chunk_document " " 500 3 = [] := by
  constructor
  · rfl
  · rfl

/-- C1 (amended): `process_document` raises its (only) hard error exactly
when the extracted text is the empty string (Python `not text`); the
empty string also chunks to zero passages, but a non-empty text that
chunks to zero passages (e.g. whitespace-only) produces a silent result
with zero passages — there is no check on the number of chunks. -/
theorem process_document_error_iff (g : GNNRetrieval) (text d a : String)
    (cs ov : Nat) (thr : ℚ) (k : Nat) (sqrt : ℚ → ℚ) :
    ((process_document g text d a cs ov thr k sqrt).toOption.isSome = false ↔ text = "")
    ∧ (text = "" → chunk_document text cs ov = []) := by
  constructor
  · by_cases h : text = "" <;> simp [process_document, h, Except.toOption]
  · intro h
    subst h
    rfl

theorem process_document_error_iff_witness :
    (process_document gKeyword "" "d" "a" 500 3 ((1 : ℚ)/2) 20 id).toOption.isSome = false
    ∧ chunk_document "" 500 3 = [] :=
  ⟨(process_document_error_iff gKeyword "" "d" "a" 500 3 ((1 : ℚ)/2) 20 id).1.mpr rfl,
   (process_document_error_iff gKeyword "" "d" "a" 500 3 ((1 : ℚ)/2) 20 id).2 rfl⟩

/-- C2 counterexample: with `overlap = 0` the claim predicts that no
sentence is carried over, so chunking `"a a a. b b b."` with
`chunk_size = 3` should give passages `"a a a."` and `"b b b."`; the code
instead seeds the new buffer with the whole just-closed buffer
(`current_chunk[-0:]` is the whole list), producing
`"a a a. b b b."` as the second passage. -/
theorem chunk_overlap_zero_cex :
    (chunk_document "a a a. b b b." 3 0).map (fun c => c.text)
        = ["a a a.", "a a a. b b b."]
    ∧ (chunk_document "a a a. b b b." 3 0).map (fun c => c.text)
        ≠ ["a a a.", "b b b."] := by
  constructor
  · rfl
  · decide

/-- C2 (amended): whenever the loop of `chunk_document` closes a passage,
the next buffer is seeded with `overlapSlice` of the just-closed buffer
followed by the new sentence; for `overlap ≥ 1` this is exactly the last
`min overlap (buffer length)` sentences, but for `overlap = 0` it is the
ENTIRE just-closed buffer (Python's `[-0:]` slice is the whole list), not
zero sentences. -/
theorem chunk_overlap_seeding (chunk_size overlap : Nat) (chunks : List Chunk)
    (cur : List (List Char)) (curLen : Nat) (s : List Char)
    (hclose : curLen + wc s > chunk_size ∧ cur ≠ []) :
    (chunkStep chunk_size overlap (chunks, cur, curLen) s).2.1
        = overlapSlice cur overlap ++ [s]
    ∧ (1 ≤ overlap → overlapSlice cur overlap = cur.drop (cur.length - overlap))
    ∧ (1 ≤ overlap → (overlapSlice cur overlap).length = min overlap cur.length)
    ∧ (overlap = 0 → overlapSlice cur overlap = cur) := by
  refine ⟨?_, ?_, ?_, ?_⟩
  · simp only [chunkStep]
    rw [if_pos hclose]
  · intro hov
    unfold overlapSlice pyTailSlice
    by_cases hlen : cur.length > overlap
    · rw [if_pos hlen, if_neg (by omega)]
    · rw [if_neg hlen]
      have h0 : cur.length - overlap = 0 := by omega
      rw [h0, List.drop_zero]
  · intro hov
    by_cases hlen : cur.length > overlap
    · unfold overlapSlice pyTailSlice
      rw [if_pos hlen, if_neg (by omega), List.length_drop]
      omega
    · unfold overlapSlice
      rw [if_neg hlen]
      omega
  · intro hov
    subst hov
    unfold overlapSlice pyTailSlice
    by_cases hlen : cur.length > 0
    · rw [if_pos hlen, if_pos rfl]
    · rw [if_neg hlen]

theorem chunk_overlap_seeding_witness :
    (chunkStep 3 0 ([], [['x']], 3) ['y']).2.1 = overlapSlice [['x']] 0 ++ [['y']]
    ∧ overlapSlice [['x']] 0 = [['x']]
    ∧ (chunkStep 3 2 ([], [['x']], 3) ['y']).2.1 = overlapSlice [['x']] 2 ++ [['y']]
    ∧ overlapSlice [['x']] 2 = [['x']].drop ([['x']].length - 2) :=
  ⟨(chunk_overlap_seeding 3 0 [] [['x']] 3 ['y'] (by decide)).1,
   (chunk_overlap_seeding 3 0 [] [['x']] 3 ['y'] (by decide)).2.2.2 rfl,
   (chunk_overlap_seeding 3 2 [] [['x']] 3 ['y'] (by decide)).1,
   (chunk_overlap_seeding 3 2 [] [['x']] 3 ['y'] (by decide)).2.1 (by decide)⟩

/-- C8: the lexical Jaccard similarity — the function applied both to
passage pairs for `keyword_overlap` edge weights (`lexicalEdges`) and to
query/passage pairs for lexical retrieval scores (`lexScores`) — lies in
`[0, 1]`; it equals `1` when a text with at least one word is compared
with itself, and equals `0` when both word sets are empty. -/
theorem pyJaccard_bounds (a b : String) :
    0 ≤ pyJaccardStr a b ∧ pyJaccardStr a b ≤ 1
    ∧ (wordSet a.data ≠ ∅ → pyJaccardStr a a = 1)
    ∧ (wordSet a.data = ∅ → wordSet b.data = ∅ → pyJaccardStr a b = 0) := by
  unfold pyJaccardStr pyJaccard
  have hden : (0 : ℚ) < ((max (wordSet a.data ∪ wordSet b.data).card 1 : Nat) : ℚ) := by
    exact_mod_cast Nat.lt_of_lt_of_le Nat.zero_lt_one (Nat.le_max_right _ _)
  refine ⟨?_, ?_, ?_, ?_⟩
  · exact div_nonneg (by positivity) (le_of_lt hden)
  · rw [div_le_one hden]
    have h1 : (wordSet a.data ∩ wordSet b.data).card ≤ (wordSet a.data ∪ wordSet b.data).card :=
      Finset.card_le_card Finset.inter_subset_union
    exact_mod_cast Nat.le_trans h1 (Nat.le_max_left _ _)
  · intro hA
    have hcard : 0 < (wordSet a.data).card :=
      Finset.card_pos.mpr (Finset.nonempty_iff_ne_empty.mpr hA)
    rw [Finset.inter_self, Finset.union_self, max_eq_left hcard]
    exact div_self (by exact_mod_cast Nat.pos_iff_ne_zero.mp hcard)
  · intro hA hB
    rw [hA, hB]
    simp

theorem pyJaccard_bounds_witness :
    (0 ≤ pyJaccardStr "apple pie" "pie crust"
      ∧ pyJaccardStr "apple pie" "pie crust" ≤ 1)
    ∧ pyJaccardStr "apple pie" "apple pie" = 1
    ∧ pyJaccardStr " " "" = 0 :=
  ⟨⟨(pyJaccard_bounds "apple pie" "pie crust").1,
    (pyJaccard_bounds "apple pie" "pie crust").2.1⟩,
   (pyJaccard_bounds "apple pie" "pie crust").2.2.1 (by decide),
   (pyJaccard_bounds " " "").2.2.2 (by decide) (by decide)⟩

/-! ### Helper lemmas for the lexical graph builder -/

theorem filter_flatMap_eq (l : List Nat) (f : Nat → List Edge) (p : Edge → Bool) :
    (l.flatMap f).filter p = l.flatMap (fun x => (f x).filter p) := by
  induction l with
  | nil => rfl
  | cons x xs ih => simp [List.flatMap_cons, List.filter_append, ih]

theorem flatMap_congr_mem (l : List Nat) (f g : Nat → List Edge)
    (h : ∀ x ∈ l, f x = g x) : l.flatMap f = l.flatMap g := by
  induction l with
  | nil => rfl
  | cons x xs ih =>
    simp only [List.flatMap_cons]
    rw [h x (List.mem_cons_self x xs), ih (fun y hy => h y (List.mem_cons_of_mem x hy))]

theorem flatMap_eq_map_of_forall (l : List Nat) (g : Nat → List Edge) (f : Nat → Edge)
    (h : ∀ x ∈ l, g x = [f x]) : l.flatMap g = l.map f := by
  induction l with
  | nil => rfl
  | cons x xs ih =>
    simp only [List.flatMap_cons, List.map_cons]
    rw [h x (List.mem_cons_self x xs), ih (fun y hy => h y (List.mem_cons_of_mem x hy))]
    rfl

theorem flatMap_range_pred (n : Nat) (f : Nat → Edge) :
    (List.range n).flatMap (fun i => if i < n - 1 then [f i] else [])
      = (List.range (n - 1)).map f := by
  cases n with
  | zero => rfl
  | succ m =>
    rw [List.range_succ, List.flatMap_append]
    have h1 : (List.range m).flatMap (fun i => if i < Nat.succ m - 1 then [f i] else [])
        = (List.range m).map f := by
      apply flatMap_eq_map_of_forall
      intro x hx
      rw [if_pos (by simpa using List.mem_range.mp hx)]
    rw [h1]
    simp

/-- C5: within one `process_document` run, graph construction and
retrieval dispatch on the same encoder test (`activeEncoder`), the
recorded `processing_method` is `"embedding"` exactly when that test
selects the embedding mode, and — for any state reachable from
`__init__` — that happens exactly when the embedding capability was
available and the model loaded. -/
theorem mode_consistency (ea : Bool) (lr : Option (String → List ℚ))
    (chunks : List Chunk) (text d a : String) (cs ov : Nat) (thr : ℚ) (k : Nat)
    (sqrt : ℚ → ℚ) :
    ((activeEncoder (GNNRetrieval.init ea lr)).isSome = true
        ↔ processing_method (GNNRetrieval.init ea lr) = "embedding")
    ∧ (processing_method (GNNRetrieval.init ea lr) = "embedding"
        ↔ (ea = true ∧ lr.isSome = true))
    ∧ (∀ e, activeEncoder (GNNRetrieval.init ea lr) = some e →
        create_graph_edges (GNNRetrieval.init ea lr) chunks thr sqrt
            = semanticEdges e chunks thr sqrt
          ∧ modeScores (GNNRetrieval.init ea lr) chunks d a sqrt
            = embSimilarities e chunks d a sqrt)
    ∧ (activeEncoder (GNNRetrieval.init ea lr) = none →
        create_graph_edges (GNNRetrieval.init ea lr) chunks thr sqrt = lexicalEdges chunks
          ∧ modeScores (GNNRetrieval.init ea lr) chunks d a sqrt = lexScores chunks d a)
    ∧ ((process_document (GNNRetrieval.init ea lr) text d a cs ov thr k sqrt).toOption.all
        (fun out => out.metadata.processing_method
          == processing_method (GNNRetrieval.init ea lr)) = true) := by
  have hall : ∀ g : GNNRetrieval,
      ((process_document g text d a cs ov thr k sqrt).toOption.all
        (fun out => out.metadata.processing_method == processing_method g) = true) := by
    intro g
    by_cases h : text = "" <;> simp [process_document, h, Except.toOption]
  cases lr with
  | none =>
    cases ea with
    | false =>
      refine ⟨?_, ?_, ?_, ?_, hall _⟩
      · simp [GNNRetrieval.init, activeEncoder, processing_method]
      · constructor
        · intro h
          have h' : ("keyword" : String) = "embedding" := h
          exact absurd h' (by decide)
        · rintro ⟨h, -⟩
          cases h
      · intro e he
        simp [GNNRetrieval.init, activeEncoder] at he
      · intro he
        exact ⟨rfl, rfl⟩
    | true =>
      refine ⟨?_, ?_, ?_, ?_, hall _⟩
      · simp [GNNRetrieval.init, activeEncoder, processing_method]
      · constructor
        · intro h
          have h' : ("keyword" : String) = "embedding" := h
          exact absurd h' (by decide)
        · rintro ⟨-, h⟩
          cases h
      · intro e he
        simp [GNNRetrieval.init, activeEncoder] at he
      · intro he
        exact ⟨rfl, rfl⟩
  | some m =>
    cases ea with
    | false =>
      refine ⟨?_, ?_, ?_, ?_, hall _⟩
      · simp [GNNRetrieval.init, activeEncoder, processing_method]
      · constructor
        · intro h
          have h' : ("keyword" : String) = "embedding" := h
          exact absurd h' (by decide)
        · rintro ⟨h, -⟩
          cases h
      · intro e he
        simp [GNNRetrieval.init, activeEncoder] at he
      · intro he
        exact ⟨rfl, rfl⟩
    | true =>
      refine ⟨?_, ?_, ?_, ?_, hall _⟩
      · simp [GNNRetrieval.init, activeEncoder, processing_method]
      · simp [GNNRetrieval.init, processing_method]
      · intro e he
        have hm : m = e := by
          simpa [GNNRetrieval.init, activeEncoder] using he
        subst hm
        exact ⟨rfl, rfl⟩
      · intro he
        simp [GNNRetrieval.init, activeEncoder] at he

theorem mode_consistency_witness :
    ((activeEncoder (GNNRetrieval.init false none)).isSome = true
        ↔ processing_method (GNNRetrieval.init false none) = "embedding")
    ∧ (processing_method (GNNRetrieval.init false none) = "embedding"
        ↔ (false = true ∧ (Option.none (α := String → List ℚ)).isSome = true))
    ∧ (create_graph_edges (GNNRetrieval.init false none) [chunkA, chunkB] ((1:ℚ)/2) id
          = lexicalEdges [chunkA, chunkB]
        ∧ modeScores (GNNRetrieval.init false none) [chunkA, chunkB] "d" "a" id
          = lexScores [chunkA, chunkB] "d" "a")
    ∧ ((process_document (GNNRetrieval.init false none) "x. y." "d" "a" 500 3 ((1:ℚ)/2) 20 id).toOption.all
        (fun out => out.metadata.processing_method
          == processing_method (GNNRetrieval.init false none)) = true) :=
  ⟨(mode_consistency false none [chunkA, chunkB] "x. y." "d" "a" 500 3 ((1:ℚ)/2) 20 id).1,
   (mode_consistency false none [chunkA, chunkB] "x. y." "d" "a" 500 3 ((1:ℚ)/2) 20 id).2.1,
   (mode_consistency false none [chunkA, chunkB] "x. y." "d" "a" 500 3 ((1:ℚ)/2) 20 id).2.2.2.1 rfl,
   (mode_consistency false none [chunkA, chunkB] "x. y." "d" "a" 500 3 ((1:ℚ)/2) 20 id).2.2.2.2⟩

/-- C6: in lexical fallback mode, the edge list contains exactly one
`sequential` edge of weight `0.8` for each adjacent pair (so exactly
`n - 1` of them, hence at least `n - 1` always exist), and a
`keyword_overlap` edge goes from a passage only to its next two
successors, exactly when the Jaccard overlap of the lowercased word sets
strictly exceeds `0.2`. -/
theorem create_graph_edges_lexical_spec (g : GNNRetrieval) (chunks : List Chunk)
    (thr : ℚ) (sqrt : ℚ → ℚ)
    (henc : activeEncoder g = none)
    (hid : ∀ i, i < chunks.length → (chunks.getD i default).id = i) :
    ((create_graph_edges g chunks thr sqrt).filter (fun e => e.type == EdgeType.sequential)
        = (List.range (chunks.length - 1)).map
            (fun i => ⟨i, i + 1, (4 : ℚ)/5, EdgeType.sequential⟩))
    ∧ (∀ e ∈ create_graph_edges g chunks thr sqrt, e.type = EdgeType.keyword_overlap →
        ∃ i j, i < chunks.length ∧ j < chunks.length ∧ (j = i + 1 ∨ j = i + 2)
          ∧ (1 : ℚ)/5 < pyJaccardStr (chunks.getD i default).text (chunks.getD j default).text
          ∧ e = ⟨i, j, pyJaccardStr (chunks.getD i default).text (chunks.getD j default).text,
                 EdgeType.keyword_overlap⟩)
    ∧ (∀ i j, i < chunks.length → j < chunks.length → (j = i + 1 ∨ j = i + 2) →
        (1 : ℚ)/5 < pyJaccardStr (chunks.getD i default).text (chunks.getD j default).text →
        (⟨i, j, pyJaccardStr (chunks.getD i default).text (chunks.getD j default).text,
          EdgeType.keyword_overlap⟩ : Edge) ∈ create_graph_edges g chunks thr sqrt) := by
  have hc : create_graph_edges g chunks thr sqrt = lexicalEdges chunks := by
    unfold create_graph_edges
    rw [henc]
  rw [hc]
  refine ⟨?_, ?_, ?_⟩
  · unfold lexicalEdges
    rw [filter_flatMap_eq]
    have hcong : ∀ i ∈ List.range chunks.length,
        (((if i < chunks.length - 1 then
            [(⟨(chunks.getD i default).id, (chunks.getD (i + 1) default).id,
               (4 : ℚ) / 5, EdgeType.sequential⟩ : Edge)]
          else []) ++
          (List.range' (i + 1) (min (i + 3) chunks.length - (i + 1))).filterMap (fun j =>
            if pyJaccardStr (chunks.getD i default).text (chunks.getD j default).text > (1 : ℚ) / 5 then
              some (⟨(chunks.getD i default).id, (chunks.getD j default).id,
                    pyJaccardStr (chunks.getD i default).text (chunks.getD j default).text,
                    EdgeType.keyword_overlap⟩ : Edge)
            else none)).filter (fun e => e.type == EdgeType.sequential))
          = if i < chunks.length - 1 then
              [(⟨i, i + 1, (4 : ℚ)/5, EdgeType.sequential⟩ : Edge)]
            else [] := by
      intro i hi
      rw [List.filter_append]
      have hkw : ((List.range' (i + 1) (min (i + 3) chunks.length - (i + 1))).filterMap (fun j =>
          if pyJaccardStr (chunks.getD i default).text (chunks.getD j default).text > (1 : ℚ) / 5 then
            some (⟨(chunks.getD i default).id, (chunks.getD j default).id,
                  pyJaccardStr (chunks.getD i default).text (chunks.getD j default).text,
                  EdgeType.keyword_overlap⟩ : Edge)
          else none)).filter (fun e => e.type == EdgeType.sequential) = [] := by
        rw [List.filter_eq_nil_iff]
        intro e he
        rw [List.mem_filterMap] at he
        obtain ⟨j, _, hj⟩ := he
        split at hj
        · cases hj
          simp
        · cases hj
      rw [hkw, List.append_nil]
      by_cases hlt : i < chunks.length - 1
      · rw [if_pos hlt, if_pos hlt]
        have hi1 : (chunks.getD i default).id = i := hid i (by omega)
        have hi2 : (chunks.getD (i + 1) default).id = i + 1 := hid (i + 1) (by omega)
        rw [hi1, hi2]
        rfl
      · rw [if_neg hlt, if_neg hlt]
        rfl
    rw [flatMap_congr_mem _ _ _ hcong]
    exact flatMap_range_pred chunks.length _
  · intro e he htype
    unfold lexicalEdges at he
    rw [List.mem_flatMap] at he
    obtain ⟨i, hi, hmem⟩ := he
    have hilt : i < chunks.length := List.mem_range.mp hi
    rw [List.mem_append] at hmem
    rcases hmem with hseq | hkw
    · exfalso
      split at hseq
      · rcases List.mem_singleton.mp hseq with rfl
        simp at htype
      · simp at hseq
    · rw [List.mem_filterMap] at hkw
      obtain ⟨j, hj, hjf⟩ := hkw
      have hjr := List.mem_range'_1.mp hj
      split at hjf
      · rename_i hjac
        cases hjf
        have hjlt : j < chunks.length ∧ (j = i + 1 ∨ j = i + 2) := by omega
        refine ⟨i, j, hilt, hjlt.1, hjlt.2, hjac, ?_⟩
        rw [hid i hilt, hid j hjlt.1]
      · cases hjf
  · intro i j hi hj hsucc hjac
    unfold lexicalEdges
    rw [List.mem_flatMap]
    refine ⟨i, List.mem_range.mpr hi, ?_⟩
    rw [List.mem_append]
    right
    rw [List.mem_filterMap]
    refine ⟨j, List.mem_range'_1.mpr (by omega), ?_⟩
    rw [if_pos hjac, hid i hi, hid j hj]

theorem create_graph_edges_lexical_spec_witness :
    (create_graph_edges gKeyword [chunkA, chunkB, chunkC] ((1 : ℚ)/2) id).filter
        (fun e => e.type == EdgeType.sequential)
      = [⟨0, 1, (4 : ℚ)/5, EdgeType.sequential⟩, ⟨1, 2, (4 : ℚ)/5, EdgeType.sequential⟩] := by
  have h := (create_graph_edges_lexical_spec gKeyword [chunkA, chunkB, chunkC] ((1 : ℚ)/2) id
    rfl (by decide)).1
  rw [h]
  rfl

/-- C3 counterexample: in embedding mode with a zero-norm passage
embedding, the retriever returns fewer than `min top_k n` passages (here
`0` instead of `min 1 1 = 1`). -/
theorem retrieve_length_cex :
    (retrieve_relevant_chunks gEmbZero [chunkA] "d" "a" 1 id).length
      ≠ min 1 ([chunkA] : List Chunk).length := by
  with_unfolding_all decide

/-- C3 (amended): `retrieve_relevant_chunks` returns exactly
`min top_k s` passages where `s` is the number of scored passages: in
lexical mode every passage is scored (`s = n`), while in embedding mode
only passages passing the positive-norm guard are scored, so the result
can be shorter than `min top_k n`.  An empty passage list yields `[]`
with no error in both modes. -/
theorem retrieve_length_min (g : GNNRetrieval) (chunks : List Chunk)
    (d a : String) (k : Nat) (sqrt : ℚ → ℚ) :
    ((retrieve_relevant_chunks g chunks d a k sqrt).length
        = min k (modeScores g chunks d a sqrt).length)
    ∧ (activeEncoder g = none → (modeScores g chunks d a sqrt).length = chunks.length)
    ∧ (chunks = [] → retrieve_relevant_chunks g chunks d a k sqrt = []) := by
  refine ⟨?_, ?_, ?_⟩
  · by_cases hne : chunks = []
    · subst hne
      rw [modeScores_nil]
      simp [retrieve_relevant_chunks]
    · rw [retrieve_eq_rankTopK g chunks d a k sqrt hne]
      exact length_rankTopK _ k chunks (modeScores_fst_nodup g chunks d a sqrt)
  · intro henc
    unfold modeScores
    rw [henc]
    exact length_lexScores chunks d a
  · intro h
    subst h
    simp [retrieve_relevant_chunks]

theorem retrieve_length_min_witness :
    ((retrieve_relevant_chunks gKeyword [chunkA, chunkB, chunkC] "banana cherry" "general" 5 id).length
        = min 5 (modeScores gKeyword [chunkA, chunkB, chunkC] "banana cherry" "general" id).length)
    ∧ ((modeScores gKeyword [chunkA, chunkB, chunkC] "banana cherry" "general" id).length
        = ([chunkA, chunkB, chunkC] : List Chunk).length)
    ∧ retrieve_relevant_chunks gKeyword [] "banana cherry" "general" 5 id = [] :=
  ⟨(retrieve_length_min gKeyword [chunkA, chunkB, chunkC] "banana cherry" "general" 5 id).1,
   (retrieve_length_min gKeyword [chunkA, chunkB, chunkC] "banana cherry" "general" 5 id).2.1 rfl,
   (retrieve_length_min gKeyword [] "banana cherry" "general" 5 id).2.2 rfl⟩

/-- C4: the retriever output is sorted by descending `relevance_score`
with ties in original passage order (Python's sort is stable and the
scored pairs are built in index order), and no returned score is below
the score of any scored candidate that was excluded. -/
theorem retrieve_sorted_stable (g : GNNRetrieval) (chunks : List Chunk)
    (d a : String) (k : Nat) (sqrt : ℚ → ℚ)
    (hid : ∀ i, i < chunks.length → (chunks.getD i default).id = i) :
    ((retrieve_relevant_chunks g chunks d a k sqrt).Pairwise
        (fun c c' => relScore c' ≤ relScore c ∧ (relScore c = relScore c' → c.id < c'.id)))
    ∧ (∀ p ∈ modeScores g chunks d a sqrt,
        (∀ c ∈ retrieve_relevant_chunks g chunks d a k sqrt, c.id ≠ p.1) →
        ∀ c ∈ retrieve_relevant_chunks g chunks d a k sqrt, p.2 ≤ relScore c) := by
  by_cases hne : chunks = []
  · subst hne
    constructor
    · simp [retrieve_relevant_chunks]
    · intro p hp
      rw [modeScores_nil] at hp
      simp at hp
  · have hres := retrieve_eq_rankTopK g chunks d a k sqrt hne
    have hnodup := modeScores_fst_nodup g chunks d a sqrt
    have heq := rankTopK_eq (modeScores g chunks d a sqrt) k chunks hnodup
    have hmemsc : ∀ p ∈ (sortDesc (modeScores g chunks d a sqrt)).take k,
        p ∈ modeScores g chunks d a sqrt := fun p hp =>
      (sortDesc_perm _).mem_iff.mp (List.mem_of_mem_take hp)
    have hplt : ∀ p ∈ (sortDesc (modeScores g chunks d a sqrt)).take k,
        p.1 < chunks.length := fun p hp =>
      modeScores_mem_lt g chunks d a sqrt p (hmemsc p hp)
    constructor
    · rw [hres, heq, List.pairwise_map]
      have hstrict := sortDesc_pairwise_strict (modeScores g chunks d a sqrt) hnodup
      have htake := List.Pairwise.sublist (List.take_sublist k _) hstrict
      refine htake.imp_of_mem ?_
      intro p q hp hq hrel
      have hidp : ({ chunks.getD p.1 default with relevance_score := some p.2 } : Chunk).id = p.1 :=
        hid p.1 (hplt p hp)
      have hidq : ({ chunks.getD q.1 default with relevance_score := some q.2 } : Chunk).id = q.1 :=
        hid q.1 (hplt q hq)
      constructor
      · show relScore { chunks.getD q.1 default with relevance_score := some q.2 }
            ≤ relScore { chunks.getD p.1 default with relevance_score := some p.2 }
        simp only [relScore, Option.getD_some]
        rcases hrel with hlt | ⟨heq2, _⟩
        · exact le_of_lt hlt
        · exact le_of_eq heq2.symm
      · intro hsc
        simp only [relScore, Option.getD_some] at hsc
        rw [hidp, hidq]
        rcases hrel with hlt | ⟨_, hidlt⟩
        · exact absurd hsc hlt.ne'
        · exact hidlt
    · intro p hp hexcl c hc
      rw [hres, heq] at hc hexcl
      rw [List.mem_map] at hc
      obtain ⟨q, hq, rfl⟩ := hc
      have hpsorted : p ∈ sortDesc (modeScores g chunks d a sqrt) :=
        (sortDesc_perm _).mem_iff.mpr hp
      have hpsplit : p ∈ (sortDesc (modeScores g chunks d a sqrt)).take k
          ++ (sortDesc (modeScores g chunks d a sqrt)).drop k := by
        rw [List.take_append_drop]
        exact hpsorted
      have hpdrop : p ∈ (sortDesc (modeScores g chunks d a sqrt)).drop k := by
        rcases List.mem_append.mp hpsplit with htk | hdp
        · exfalso
          have hplti : p.1 < chunks.length := hplt p htk
          have := hexcl _ (List.mem_map.mpr ⟨p, htk, rfl⟩)
          exact this (hid p.1 hplti)
        · exact hdp
      have hPW2 : ((sortDesc (modeScores g chunks d a sqrt)).take k
          ++ (sortDesc (modeScores g chunks d a sqrt)).drop k).Pairwise scoreOrder := by
        rw [List.take_append_drop]
        exact sortDesc_sorted _
      have hrel := (List.pairwise_append.mp hPW2).2.2 q hq p hpdrop
      have hle : p.2 ≤ q.2 := by
        rcases hrel with h | ⟨h, _⟩
        · exact le_of_lt h
        · exact le_of_eq h.symm
      show p.2 ≤ relScore { chunks.getD q.1 default with relevance_score := some q.2 }
      simpa [relScore] using hle

theorem retrieve_sorted_stable_witness :
    ((retrieve_relevant_chunks gKeyword [chunkA, chunkB, chunkC] "banana cherry" "general" 2 id).Pairwise
        (fun c c' => relScore c' ≤ relScore c ∧ (relScore c = relScore c' → c.id < c'.id)))
    ∧ (∀ p ∈ modeScores gKeyword [chunkA, chunkB, chunkC] "banana cherry" "general" id,
        (∀ c ∈ retrieve_relevant_chunks gKeyword [chunkA, chunkB, chunkC] "banana cherry" "general" 2 id,
          c.id ≠ p.1) →
        ∀ c ∈ retrieve_relevant_chunks gKeyword [chunkA, chunkB, chunkC] "banana cherry" "general" 2 id,
          p.2 ≤ relScore c) :=
  retrieve_sorted_stable gKeyword [chunkA, chunkB, chunkC] "banana cherry" "general" 2 id (by decide)

/-- C9: every passage returned by the retriever is an annotated COPY of
an input passage — removing its `relevance_score` gives back an element
of the input list — and the input passages themselves are never mutated
(the embedding is pure; the code's `chunks[idx].copy()` is what makes the
returned elements fresh dicts). -/
theorem retrieve_annotates_copies (g : GNNRetrieval) (chunks : List Chunk)
    (d a : String) (k : Nat) (sqrt : ℚ → ℚ)
    (horig : ∀ c ∈ chunks, c.relevance_score = none) :
    ∀ c ∈ retrieve_relevant_chunks g chunks d a k sqrt,
      c.relevance_score.isSome = true
      ∧ ∃ c₀ ∈ chunks, { c with relevance_score := none } = c₀ := by
  intro c hc
  by_cases hne : chunks = []
  · subst hne
    simp [retrieve_relevant_chunks] at hc
  · rw [retrieve_eq_rankTopK g chunks d a k sqrt hne,
      rankTopK_eq _ k chunks (modeScores_fst_nodup g chunks d a sqrt)] at hc
    rw [List.mem_map] at hc
    obtain ⟨p, hp, rfl⟩ := hc
    have hplt : p.1 < chunks.length :=
      modeScores_mem_lt g chunks d a sqrt p
        ((sortDesc_perm _).mem_iff.mp (List.mem_of_mem_take hp))
    refine ⟨rfl, chunks.getD p.1 default, ?_, ?_⟩
    · rw [List.getD_eq_getElem?_getD, List.getElem?_eq_getElem hplt]
      simp only [Option.getD_some]
      exact List.getElem_mem hplt
    · have h0 : (chunks.getD p.1 default).relevance_score = none := by
        apply horig
        rw [List.getD_eq_getElem?_getD, List.getElem?_eq_getElem hplt]
        simp only [Option.getD_some]
        exact List.getElem_mem hplt
      show ({ chunks.getD p.1 default with relevance_score := none } : Chunk)
          = chunks.getD p.1 default
      cases hch : chunks.getD p.1 default
      rw [hch] at h0
      simp_all

theorem retrieve_annotates_copies_witness :
    ({ chunkA with relevance_score := some ((1 : ℚ)/2) } : Chunk).relevance_score.isSome = true
    ∧ ∃ c₀ ∈ ([chunkA, chunkB, chunkC] : List Chunk),
        { ({ chunkA with relevance_score := some ((1 : ℚ)/2) } : Chunk) with
            relevance_score := none } = c₀ :=
  retrieve_annotates_copies gKeyword [chunkA, chunkB, chunkC] "banana cherry" "general" 2 id
    (by decide) { chunkA with relevance_score := some ((1 : ℚ)/2) }
    (by with_unfolding_all decide)

/-- C10: in embedding mode, a passage whose embedding has zero norm
(equivalently, zero squared norm) is never scored and is omitted from the
output entirely — and if the query embedding has zero norm the output is
empty — so the result length is `min top_k s` with `s` the number of
scored passages, which can be less than `min top_k n`. -/
theorem retrieve_embedding_zero_norm_omitted (g : GNNRetrieval)
    (encode : String → List ℚ) (chunks : List Chunk) (d a : String) (k : Nat)
    (sqrt : ℚ → ℚ)
    (henc : activeEncoder g = some encode)
    (hid : ∀ i, i < chunks.length → (chunks.getD i default).id = i) :
    (sumSq (encode (d ++ " Audience: " ++ a)) = 0 →
        retrieve_relevant_chunks g chunks d a k sqrt = [])
    ∧ (∀ i, i < chunks.length → sumSq (encode (chunks.getD i default).text) = 0 →
        ∀ c ∈ retrieve_relevant_chunks g chunks d a k sqrt, c.id ≠ i)
    ∧ ((retrieve_relevant_chunks g chunks d a k sqrt).length
        = min k (embSimilarities encode chunks d a sqrt).length) := by
  have hms : modeScores g chunks d a sqrt = embSimilarities encode chunks d a sqrt := by
    unfold modeScores
    rw [henc]
  refine ⟨?_, ?_, ?_⟩
  · intro hq
    by_cases hne : chunks = []
    · subst hne
      simp [retrieve_relevant_chunks]
    · rw [retrieve_eq_rankTopK g chunks d a k sqrt hne, hms]
      have hnil : embSimilarities encode chunks d a sqrt = [] := by
        unfold embSimilarities
        rw [List.filterMap_eq_nil_iff]
        intro i _
        rw [if_neg]
        rintro ⟨h1, -⟩
        rw [hq] at h1
        exact lt_irrefl 0 h1
      rw [hnil]
      unfold rankTopK sortDesc
      simp
  · intro i hi hzero c hc
    by_cases hne : chunks = []
    · subst hne
      simp [retrieve_relevant_chunks] at hc
    · rw [retrieve_eq_rankTopK g chunks d a k sqrt hne,
        rankTopK_eq _ k chunks (modeScores_fst_nodup g chunks d a sqrt)] at hc
      rw [List.mem_map] at hc
      obtain ⟨p, hp, rfl⟩ := hc
      have hpmem : p ∈ modeScores g chunks d a sqrt :=
        (sortDesc_perm _).mem_iff.mp (List.mem_of_mem_take hp)
      have hplt := modeScores_mem_lt g chunks d a sqrt p hpmem
      rw [hms] at hpmem
      have hguard := (embSimilarities_mem encode chunks d a sqrt p hpmem).2.2
      have hidp : ({ chunks.getD p.1 default with relevance_score := some p.2 } : Chunk).id = p.1 :=
        hid p.1 hplt
      rw [hidp]
      intro hpi
      subst hpi
      rw [hzero] at hguard
      exact lt_irrefl 0 hguard
  · by_cases hne : chunks = []
    · subst hne
      simp [retrieve_relevant_chunks, embSimilarities]
    · rw [retrieve_eq_rankTopK g chunks d a k sqrt hne, hms]
      exact length_rankTopK _ k chunks (embSimilarities_fst_nodup encode chunks d a sqrt)

theorem retrieve_embedding_zero_norm_omitted_witness :
    (sumSq (mixedEncoder ("q" ++ " Audience: " ++ "aud")) = 0 →
        retrieve_relevant_chunks gEmbMixed [chunkA, chunkB, chunkC] "q" "aud" 3 id = [])
    ∧ (∀ i, i < ([chunkA, chunkB, chunkC] : List Chunk).length →
        sumSq (mixedEncoder (([chunkA, chunkB, chunkC] : List Chunk).getD i default).text) = 0 →
        ∀ c ∈ retrieve_relevant_chunks gEmbMixed [chunkA, chunkB, chunkC] "q" "aud" 3 id,
          c.id ≠ i)
    ∧ ((retrieve_relevant_chunks gEmbMixed [chunkA, chunkB, chunkC] "q" "aud" 3 id).length
        = min 3 (embSimilarities mixedEncoder [chunkA, chunkB, chunkC] "q" "aud" id).length) :=
  retrieve_embedding_zero_norm_omitted gEmbMixed mixedEncoder [chunkA, chunkB, chunkC]
    "q" "aud" 3 id rfl (by decide)
